import Mathlib

/-!
Verification of the cocrawler URL canonicalization module (`cocrawler/urls.py`).

Python strings are modelled as `List Char`; machine-level behaviour (slicing,
`str.split`, `str.replace`, regex prefix matches) is translated operation by
operation.  Python exceptions are modelled with `Except PyErr`.  The standard
library functions `urllib.parse.urlsplit` / `urlunsplit` / `urljoin` used by
the module are embedded following CPython's implementation.  The collaborator
modules `surt` and `tldextract`, whose sources are not part of this tree, are
modelled from the specification (each such definition says so in its doc
comment).
-/

deriving instance DecidableEq for Except

namespace Cocrawler

/-- Convert a Lean string literal to the `List Char` representation used
throughout this development. -/
def chars (x : String) : List Char := x.data

/-- Python exception classes that the module can raise. -/
inductive PyErr where
  /-- Python `ValueError('Invalid path, must start with /')` from `remove_dot_segments`. -/
  | invalidPath : PyErr
  /-- Python `IndexError` from indexing an empty string. -/
  | indexError : PyErr
  /-- Python `ValueError` from `urllib.parse.urlsplit` (mismatched IPv6 brackets). -/
  | invalidURL : PyErr
  /-- Python `ValueError` from `int(q, base=16)` on a non-hex string inside `unquote`. -/
  | hexError : PyErr
deriving DecidableEq, Repr

/-- ASCII lower-casing of a single character, as Python `str.lower` acts on
ASCII input. -/
def lowerChar (c : Char) : Char :=
  if 'A' ≤ c ∧ c ≤ 'Z' then Char.ofNat (c.toNat + 32) else c

/-- ASCII upper-casing of a single character, as Python `str.upper` acts on
ASCII input. -/
def upperChar (c : Char) : Char :=
  if 'a' ≤ c ∧ c ≤ 'z' then Char.ofNat (c.toNat - 32) else c

/-- Lower-case a whole string. -/
def lowerStr (t : List Char) : List Char := t.map lowerChar

/-- Value of one hexadecimal digit, as accepted by Python `int(_, base=16)`. -/
def hexDigitVal (c : Char) : Option Nat :=
  if '0' ≤ c ∧ c ≤ '9' then some (c.toNat - '0'.toNat)
  else if 'a' ≤ c ∧ c ≤ 'f' then some (c.toNat - 'a'.toNat + 10)
  else if 'A' ≤ c ∧ c ≤ 'F' then some (c.toNat - 'A'.toNat + 10)
  else none

/-- Python `int(q, base=16)` on a string of hex digits: fails on the empty
string or on any non-hex character. -/
def hexVal (q : List Char) : Option Nat :=
  match q with
  | [] => none
  | _ =>
    q.foldl (fun acc c =>
      match acc, hexDigitVal c with
      | some n, some d => some (n * 16 + d)
      | _, _ => none) (some 0)

/-- Is `c` a lowercase-rendering hex digit (as produced by Python `'%02x'`)? -/
def isLowerHexDigit (c : Char) : Bool :=
  ('0' ≤ c ∧ c ≤ '9') ∨ ('a' ≤ c ∧ c ≤ 'f')

/-- Is `c` an uppercase-rendering hex digit (as produced by Python `'%02X'`)? -/
def isUpperHexDigit (c : Char) : Bool :=
  ('0' ≤ c ∧ c ≤ '9') ∨ ('A' ≤ c ∧ c ≤ 'F')

/-- The `valid_hex` set of `urls.py`: all strings `'%02x' % i` and `'%02X' % i`
for `i < 256`.  A two-character string is in the set iff both characters come
from the lowercase rendering or both come from the uppercase rendering; a
mixed-case pair such as `"aB"` is not in the set. -/
def validHex (q : List Char) : Bool :=
  match q with
  | [a, b] => (isLowerHexDigit a ∧ isLowerHexDigit b) ∨
              (isUpperHexDigit a ∧ isUpperHexDigit b)
  | _ => false

/-- Render `n % 16` as an uppercase hex digit (Python `'%X'`). -/
def hexDigitUpper (n : Nat) : Char :=
  if n % 16 < 10 then Char.ofNat ('0'.toNat + n % 16)
  else Char.ofNat ('A'.toNat + n % 16 - 10)

/-- Render a byte as Python `'%02X' % n`. -/
def hexPairUpper (n : Nat) : List Char :=
  [hexDigitUpper (n / 16), hexDigitUpper n]

/-- The `unreserved` safe-set of `urls.py`: `A-Z a-z 0-9 - . _ ~` as uppercase
hex pairs. -/
def unreservedSet : List (List Char) :=
  ((List.range' 0x41 (0x5b - 0x41)).map hexPairUpper) ++
  ((List.range' 0x61 (0x7b - 0x61)).map hexPairUpper) ++
  ((List.range' 0x30 (0x3a - 0x30)).map hexPairUpper) ++
  [chars "2D", chars "2E", chars "5F", chars "7E"]

/-- The `subdelims` set of `urls.py`: `! $ ; =` plus `& ' ( ) * + ,`. -/
def subdelimsSet : List (List Char) :=
  [chars "21", chars "24", chars "3B", chars "3D"] ++
  ((List.range' 0x26 (0x2d - 0x26)).map hexPairUpper)

/-- The `unquote_in_path` set: subdelims plus `:` and `@`. -/
def unquoteInPath : List (List Char) :=
  subdelimsSet ++ [chars "3A", chars "40"]

/-- The `unquote_in_query` set: subdelims plus `: / ? @`, minus `&` and `=`. -/
def unquoteInQuery : List (List Char) :=
  ((subdelimsSet ++ [chars "3A", chars "2F", chars "3F", chars "40"]).filter
    (fun q => q ≠ chars "26")).filter (fun q => q ≠ chars "3D")

/-- The `unquote_in_frag` set: a copy of `unquote_in_query`. -/
def unquoteInFrag : List (List Char) := unquoteInQuery

/-- Python `text.split(sep)` for a one-character separator, returned as the
first piece together with the remaining pieces (so the result is never the
empty list, exactly like Python's `str.split`). -/
def pySplit (sep : Char) : List Char → List Char × List (List Char)
  | [] => ([], [])
  | c :: t =>
    let r := pySplit sep t
    if c = sep then ([], r.1 :: r.2) else (c :: r.1, r.2)

/-- Does the string end with `'%'`?  (Python `text.endswith('%')`.) -/
def endsPct (t : List Char) : Bool := t.getLast? = some '%'

/-- The `quote` of a piece, as `unquote` computes it: the first two
characters, upper-cased when they are a `valid_hex` member. -/
def quoteOf (p : List Char) : List Char :=
  if validHex (p.take 2) then (p.take 2).map upperChar else p.take 2

/-- The loop of `unquote` over the pieces produced by splitting at `'%'`.
The boolean tracks whether the text accumulated so far ends with `'%'`
(each piece contributes a non-empty suffix, so tracking the flag is
equivalent to Python's `text.endswith('%')` test).  Returns `none` when
Python's `int(quote, base=16)` would raise. -/
def unquoteAux (safe : List (List Char)) : Bool → List (List Char) → Option (List Char)
  | _, [] => some []
  | true, p :: ps =>
    (fun t => '%' :: p ++ t) <$> unquoteAux safe (endsPct ('%' :: p)) ps
  | false, p :: ps =>
    if quoteOf p ∈ safe then
      match hexVal (quoteOf p) with
      | none => none
      | some n =>
        (fun t => Char.ofNat n :: p.drop 2 ++ t) <$>
          unquoteAux safe (endsPct (Char.ofNat n :: p.drop 2)) ps
    else
      (fun t => '%' :: quoteOf p ++ p.drop 2 ++ t) <$>
        unquoteAux safe (endsPct ('%' :: quoteOf p ++ p.drop 2)) ps

/-- Embedding of `unquote(text, safe)` from `urls.py`: split at `'%'`, then re-emit each
piece, decoding its leading two characters when they form a safe hex pair.
`none` models the `ValueError` that Python's `int` raises when a non-hex
`quote` is a member of `safe`. -/
def unquote (text : List Char) (safe : List (List Char)) : Option (List Char) :=
  let pieces := pySplit '%' text
  (fun t => pieces.1 ++ t) <$> unquoteAux safe false pieces.2

/-- Python `'/'.join(segs)`. -/
def joinSlash (segs : List (List Char)) : List Char :=
  List.intercalate [sep] segs
where sep : Char := '/'

/-- The resolution loop of `remove_dot_segments`: `..` pops (silently doing
nothing on an empty stack, like the caught `IndexError`), `.` is dropped,
anything else is appended. -/
def resolveSegs (acc : List (List Char)) : List (List Char) → List (List Char)
  | [] => acc
  | sg :: rest =>
    if sg = chars ".." then resolveSegs acc.dropLast rest
    else if sg = chars "." then resolveSegs acc rest
    else resolveSegs (acc ++ [sg]) rest

/-- Python slice assignment `segments[1:-1] = filter(None, segments[1:-1])`:
keep the first and last elements, drop empty strings strictly between them. -/
def filterInterior (first : List Char) (rest : List (List Char)) : List (List Char) :=
  match rest with
  | [] => [first]
  | _ =>
    first :: (rest.dropLast.filter (fun sg => ¬ sg.isEmpty)) ++ [rest.getLast!]

/-- Embedding of `remove_dot_segments(path)` from `urls.py`.  Indexing `path[0]` on the
empty string raises `IndexError`; a path not starting with `'/'` raises
`ValueError` (the InvalidPath signal). -/
def remove_dot_segments (path : List Char) : Except PyErr (List Char) :=
  match path with
  | [] => .error .indexError
  | c :: _ =>
    if c ≠ '/' then .error .invalidPath
    else
      let pieces := pySplit '/' path
      let segments := filterInterior pieces.1 pieces.2
      .ok ('/' :: joinSlash (resolveSegs [] (segments.drop 1)))

example : unquote (chars "%2F") [chars "2F"] = some (chars "/") := by decide
example : unquote (chars "%2f") [chars "2F"] = some (chars "/") := by decide
example : unquote (chars "%xy") [] = some (chars "%xy") := by decide
example : unquote (chars "%") [] = some (chars "%") := by decide
example : unquote (chars "%25%41") [chars "25", chars "41"] = some (chars "%%41") := by decide
example : unquote (chars "%aB") [chars "AB"] = some (chars "%aB") := by decide
example : unquote (chars "a%%41") [chars "41"] = some (chars "a%%41") := by decide
example : unquote (chars "%a%41") [chars "41"] = some (chars "%aA") := by decide

/-- Does `pat` occur as a prefix of `t`? (Python `t.startswith(pat)`.) -/
def startsWith : List Char → List Char → Bool
  | [], _ => true
  | _, [] => false
  | p :: ps, c :: cs => p = c ∧ startsWith ps cs

/-- Does `t` end with `suf`? (Python `t.endswith(suf)`.) -/
def endsWithL (suf t : List Char) : Bool :=
  suf.length ≤ t.length ∧ t.drop (t.length - suf.length) = suf

/-- Index of the first occurrence of `pat` as a substring of `t`
(Python `t.find(pat)`, with `none` for `-1`). -/
def findSub (pat : List Char) : List Char → Option Nat
  | [] => if pat.isEmpty then some 0 else none
  | c :: t =>
    if startsWith pat (c :: t) then some 0
    else (fun n => n + 1) <$> findSub pat t

/-- Python `t.replace(pat, repl, 1)` for non-overlapping first occurrence. -/
def replaceFirstSub (pat repl : List Char) : List Char → List Char
  | [] => if pat.isEmpty then repl else []
  | c :: t =>
    if startsWith pat (c :: t) then repl ++ (c :: t).drop pat.length
    else c :: replaceFirstSub pat repl t

/-- Python `t.replace(a, b)` for one-character `a`, `b` (all occurrences). -/
def replaceChar (a b : Char) (t : List Char) : List Char :=
  t.map fun c => if c = a then b else c

/-- Python `t.split(sep, 1)` behavior used by `urlsplit`: split at the first
occurrence of `sep`; when `sep` is absent, the whole string with an empty
second half. -/
def splitFirst (sep : Char) (t : List Char) : List Char × List Char :=
  if sep ∈ t then (t.takeWhile (· ≠ sep), (t.dropWhile (· ≠ sep)).drop 1)
  else (t, [])

/-- Embedding of `is_absolute_url(url)` from `urls.py`. -/
def is_absolute_url (url : List Char) : Bool :=
  startsWith (chars "//") url ∨
  lowerStr (url.take 7) = chars "http://" ∨
  lowerStr (url.take 8) = chars "https://"

/-- Characters Python's `strip` removes in step 1 of `clean_webpage_links`:
ASCII `0x00`–`0x1f` and the space. -/
def isStripChar (c : Char) : Bool := c.toNat ≤ 0x20

/-- Step 1 of `clean_webpage_links`: trim control characters and spaces from
both ends. -/
def stripCtl (link : List Char) : List Char :=
  ((link.dropWhile isStripChar).reverse.dropWhile isStripChar).reverse

/-- The optional case-insensitive scheme part matched by `(?:https?:)?`:
returns the matched prefix of `link` (possibly empty). -/
def schemeOptPart (link : List Char) : List Char :=
  if lowerStr (link.take 6) = chars "https:" then link.take 6
  else if lowerStr (link.take 5) = chars "http:" then link.take 5
  else []

/-- Step 2 of `clean_webpage_links`: the regex `(?:https?:)?/{3,}` match,
collapsing a leading run of three or more slashes (after an optional
case-insensitive scheme) to exactly `//`. -/
def slashFix (link : List Char) : List Char :=
  let sch := schemeOptPart link
  let after := link.drop sch.length
  let run := after.takeWhile (· = '/')
  if 3 ≤ run.length then sch ++ chars "//" ++ after.drop run.length else link

/-- Step 3 of `clean_webpage_links`: the regex `(?:https?:)?\\{2,}` match,
collapsing a leading run of two or more backslashes to `//`. -/
def backslashFix (link : List Char) : List Char :=
  let sch := schemeOptPart link
  let after := link.drop sch.length
  let run := after.takeWhile (· = '\\')
  if 2 ≤ run.length then sch ++ chars "//" ++ after.drop run.length else link

/-- Step 4 of `clean_webpage_links`: on an absolute url, scan from just after
the scheme separator (`link.find('://') + 3`, which is position 2 when there
is no `://`) for the first of `\ / ? #`; when that first character is a
backslash, replace that single backslash with a forward slash. -/
def absFix (link : List Char) : List Char :=
  if is_absolute_url link then
    let start := match findSub (chars "://") link with
      | some i => i + 3
      | none => 2
    let tail := link.drop start
    match tail.find? (fun c => c = '\\' ∨ c = '/' ∨ c = '?' ∨ c = '#') with
    | some c =>
      if c = '\\' then link.take start ++ replaceFirstSub (chars "\\") (chars "/") tail
      else link
    | none => link
  else link

/-- The terminator characters of the runaway-link regex
`(.*?)[<>"'\r\n ]`. -/
def isTerm (c : Char) : Bool :=
  c = '<' ∨ c = '>' ∨ c = '"' ∨ c = '\'' ∨ c = '\r' ∨ c = '\n' ∨ c = ' '

/-- Steps 1–4 of `clean_webpage_links`, before the runaway-length handling. -/
def cleanPre (link : List Char) : List Char :=
  absFix (backslashFix (slashFix (stripCtl link)))

/-- Step 5's truncation: the regex `(.*?)[<>"'\r\n ]` truncates at the first
terminator when one exists, and leaves the link unchanged otherwise. -/
def truncTerm (link : List Char) : List Char :=
  if link.any isTerm then link.takeWhile (fun c => !(isTerm c)) else link

/-- Embedding of `clean_webpage_links(link)` from `urls.py` (the `urljoin` argument only
feeds a diagnostic message and is omitted). -/
def clean_webpage_links (link : List Char) : List Char :=
  let l4 := cleanPre link
  if 300 < l4.length then
    let l5 := truncTerm l4
    if 300 < l5.length then []
    else (l5.filter (· ≠ '\r')).filter (· ≠ '\n')
  else (l4.filter (· ≠ '\r')).filter (· ≠ '\n')

/-- The `SplitResult` five-tuple of `urllib.parse.urlsplit`. -/
structure SplitRec where
  scheme : List Char
  netloc : List Char
  path : List Char
  query : List Char
  fragment : List Char
deriving DecidableEq, Repr

/-- Characters allowed in a scheme by `urllib.parse` (`scheme_chars`). -/
def schemeChar (c : Char) : Bool :=
  ('a' ≤ c ∧ c ≤ 'z') ∨ ('A' ≤ c ∧ c ≤ 'Z') ∨ ('0' ≤ c ∧ c ≤ '9') ∨
  c = '+' ∨ c = '-' ∨ c = '.'

/-- Mismatched IPv6 brackets make `urlsplit` raise `ValueError`. -/
def bracketsMismatch (nl : List Char) : Bool :=
  ('[' ∈ nl ∧ ']' ∉ nl) ∨ (']' ∈ nl ∧ '[' ∉ nl)

/-- The scheme-peeling step of `urlsplit`: when everything before the first
`:` is made of scheme characters, the (lower-cased) scheme is peeled off;
otherwise the default scheme is kept and the url left whole. -/
def schemeSplit (url defaultScheme : List Char) : List Char × List Char :=
  match findSub (chars ":") url with
  | some i =>
    if 0 < i ∧ (url.take i).all schemeChar
    then (lowerStr (url.take i), url.drop (i + 1))
    else (defaultScheme, url)
  | none => (defaultScheme, url)

/-- A character that terminates the netloc in `urlsplit`. -/
def netDelim (c : Char) : Bool := c = '/' ∨ c = '?' ∨ c = '#'

/-- The netloc-peeling step of `urlsplit` (`_splitnetloc`): after a leading
`//`, the netloc runs to the next `/ ? #`. -/
def netlocSplit (rest : List Char) : List Char × List Char :=
  if startsWith (chars "//") rest then
    ((rest.drop 2).takeWhile (fun c => !(netDelim c)),
     (rest.drop 2).dropWhile (fun c => !(netDelim c)))
  else ([], rest)

/-- Embedding of `urllib.parse.urlsplit(url, scheme=default)`, translated from CPython:
peel a scheme when everything before the first `:` is made of scheme
characters, peel a `//…` netloc up to the next `/ ? #` (raising on
mismatched IPv6 brackets), then split off the fragment at the first `#` and
the query at the first `?`. -/
def urlsplitD (url : List Char) (defaultScheme : List Char) : Except PyErr SplitRec :=
  let sr := schemeSplit url defaultScheme
  let nr := netlocSplit sr.2
  if bracketsMismatch nr.1 then .error .invalidURL
  else
    let fr := splitFirst '#' nr.2
    let pq := splitFirst '?' fr.1
    .ok ⟨sr.1, nr.1, pq.1, pq.2, fr.2⟩

/-- Embedding of `urllib.parse.urlsplit(url)` with the default empty scheme. -/
def pyUrlsplit (url : List Char) : Except PyErr SplitRec := urlsplitD url []

/-- Embedding of `urllib.parse.urlunsplit`, translated from CPython.  The `None` fragment
passed by `safe_url_canonicalization` behaves like the empty string. -/
def urlunsplit (r : SplitRec) : List Char :=
  let u0 := r.path
  let u1 :=
    if ¬ r.netloc.isEmpty ∨ (¬ u0.isEmpty ∧ startsWith (chars "//") u0) then
      chars "//" ++ r.netloc ++
        (if ¬ u0.isEmpty ∧ ¬ startsWith (chars "/") u0 then '/' :: u0 else u0)
    else u0
  let u2 := if ¬ r.scheme.isEmpty then r.scheme ++ ':' :: u1 else u1
  let u3 := if ¬ r.query.isEmpty then u2 ++ '?' :: r.query else u2
  if ¬ r.fragment.isEmpty then u3 ++ '#' :: r.fragment else u3

/-- Python `path.split('/')` as a plain list (never empty). -/
def fullSplit (sep : Char) (t : List Char) : List (List Char) :=
  let p := pySplit sep t
  p.1 :: p.2

/-- The `uses_relative` scheme list of `urllib.parse`. -/
def usesRelative : List (List Char) :=
  [chars "", chars "ftp", chars "http", chars "gopher", chars "nntp",
   chars "imap", chars "wais", chars "file", chars "https", chars "shttp",
   chars "mms", chars "prospero", chars "rtsp", chars "rtspu", chars "sftp",
   chars "svn", chars "svn+ssh", chars "ws", chars "wss"]

/-- The `uses_netloc` scheme list of `urllib.parse`. -/
def usesNetloc : List (List Char) :=
  [chars "", chars "ftp", chars "http", chars "gopher", chars "nntp",
   chars "telnet", chars "imap", chars "wais", chars "file", chars "mms",
   chars "https", chars "shttp", chars "snews", chars "prospero",
   chars "rtsp", chars "rtspu", chars "rsync", chars "svn",
   chars "svn+ssh", chars "sftp", chars "nfs", chars "git",
   chars "git+ssh", chars "ws", chars "wss"]

/-- The segment-resolution loop shared by `urljoin` (same pop/drop/append
rule as `remove_dot_segments`, but with a final trailing-slash fix-up). -/
def urljoinResolve (segments : List (List Char)) : List Char :=
  let resolved := resolveSegs [] segments
  let resolved :=
    if segments.getLast? = some (chars ".") ∨ segments.getLast? = some (chars "..")
    then resolved ++ [[]] else resolved
  let j := joinSlash resolved
  if j.isEmpty then chars "/" else j

/-- Embedding of `urllib.parse.urljoin(base, url)`, translated from CPython 3.6 at the
`urlsplit` granularity: path parameters (`;`) are retained inside the path
component rather than split off, which leaves the joined string unchanged. -/
def pyUrljoin (base url : List Char) : Except PyErr (List Char) :=
  if base.isEmpty then .ok url
  else if url.isEmpty then .ok base
  else do
    let b ← urlsplitD base []
    let u ← urlsplitD url b.scheme
    if u.scheme ≠ b.scheme ∨ u.scheme ∉ usesRelative then .ok url
    else if u.scheme ∈ usesNetloc ∧ ¬ u.netloc.isEmpty then
      .ok (urlunsplit u)
    else
      let netloc := if u.scheme ∈ usesNetloc then b.netloc else u.netloc
      if u.path.isEmpty then
        let q := if u.query.isEmpty then b.query else u.query
        .ok (urlunsplit ⟨u.scheme, netloc, b.path, q, u.fragment⟩)
      else
        let segments :=
          if startsWith (chars "/") u.path then fullSplit '/' u.path
          else
            let baseParts := fullSplit '/' b.path
            let baseParts :=
              if baseParts.getLast? ≠ some [] then baseParts.dropLast else baseParts
            match baseParts ++ fullSplit '/' u.path with
            | [] => []
            | first :: rest => filterInterior first rest
        .ok (urlunsplit ⟨u.scheme, netloc, urljoinResolve segments, u.query, u.fragment⟩)

/-- Embedding of `special_seed_handling(url)` from `urls.py`. -/
def special_seed_handling (url : List Char) : Except PyErr (List Char) := do
  let parts ← pyUrlsplit url
  if parts.scheme.isEmpty then
    if startsWith (chars "//") url then .ok (chars "http:" ++ url)
    else .ok (chars "http://" ++ url)
  else .ok url

/-- Modelled from the spec: `surt.netloc_to_punycanon(scheme, netloc)` of the
missing `cocrawler/surt.py` — "punycode, case-fold, default-port removal".
The model case-folds the netloc and removes an explicit default port
(`:80` for http, `:443` for https); punycoding of non-ASCII labels is not
modelled. -/
def netloc_to_punycanon (scheme netloc : List Char) : List Char :=
  if scheme = chars "http" ∧ endsWithL (chars ":80") (lowerStr netloc) then
    (lowerStr netloc).take ((lowerStr netloc).length - 3)
  else if scheme = chars "https" ∧ endsWithL (chars ":443") (lowerStr netloc) then
    (lowerStr netloc).take ((lowerStr netloc).length - 4)
  else lowerStr netloc

/-- Modelled from the spec: `surt.hostname_to_punycanon(netloc)` of the
missing `cocrawler/surt.py` — `netloc_to_hostname(netloc) -> hostname`.
The model drops any userinfo before `@` and any port after `:`. -/
def hostname_to_punycanon (netloc : List Char) : List Char :=
  let h := (fullSplit '@' netloc).getLast!
  h.takeWhile (· ≠ ':')

/-- Modelled from the spec: `surt.discard_www_from_hostname(hostname)` of the
missing `cocrawler/surt.py` — `without_www(hostname) -> hostname`. -/
def discard_www_from_hostname (h : List Char) : List Char :=
  if startsWith (chars "www.") h then h.drop 4 else h

/-- Modelled from the spec: `surt.surt(url)` of the missing
`cocrawler/surt.py` derives a sort-friendly reordering key
(`surt_key(canonical_url) -> string`); no claim depends on its internal
transform, so the key is modelled as the canonical url itself. -/
def surt (url : List Char) : List Char := url

/-- Modelled from the spec: `tldextract.extract(url).registered_domain` — the
public-suffix-aware registered domain.  The suffix table is not modelled; the
model takes the hostname of the url and returns the last two dot-separated
labels (empty when there are fewer than two). -/
def tldextract_registered_domain (url : List Char) : List Char :=
  let afterScheme := match findSub (chars "://") url with
    | some i => url.drop (i + 3)
    | none => if startsWith (chars "//") url then url.drop 2 else url
  let host := afterScheme.takeWhile
    (fun c => ¬ (c = '/' ∨ c = '?' ∨ c = '#' ∨ c = ':' ∨ c = '@'))
  let labels := fullSplit '.' host
  if 2 ≤ labels.length then
    joinDot ((labels.drop (labels.length - 2)))
  else []
where joinDot (ls : List (List Char)) : List Char := List.intercalate [dot] ls
      dot : Char := '.'

/-- Lift the `Option` returned by `unquote` into the exception monad (the
`none` case is the `ValueError` raised by `int(_, base=16)`). -/
def optExcept {α : Type} (e : PyErr) : Option α → Except PyErr α
  | some a => .ok a
  | none => .error e

/-- The fragment handling inside `safe_url_canonicalization`: a non-empty
fragment ( `fragment is not ''` on `urlsplit` output is a plain non-emptiness
test ) is unquoted with the fragment safe-set and re-prefixed with `#`; an
empty one stays empty. -/
def canonFrag (fragment : List Char) : Except PyErr (List Char) :=
  if ¬ fragment.isEmpty then
    (fun f => '#' :: f) <$> optExcept .hexError (unquote fragment unquoteInFrag)
  else pure []

/-- Embedding of `safe_url_canonicalization(url)` from `urls.py`: whole-url unquote with
the unreserved set, structural split, scheme lower-casing, netloc
canonicalization, path defaulting plus dot-segment removal plus backslash
replacement plus path-set unquote, query-set unquote, and a separately
returned `#`-prefixed fragment. -/
def safe_url_canonicalization (url : List Char) :
    Except PyErr (List Char × List Char) := do
  let u ← optExcept .hexError (unquote url unreservedSet)
  let p ← pyUrlsplit u
  let scheme := lowerStr p.scheme
  let netloc := netloc_to_punycanon scheme p.netloc
  let path0 := if p.path.isEmpty then chars "/" else p.path
  let path1 ← remove_dot_segments path0
  let path2 := replaceChar '\\' '/' path1
  let path ← optExcept .hexError (unquote path2 unquoteInPath)
  let query ← optExcept .hexError (unquote p.query unquoteInQuery)
  let frag ← canonFrag p.fragment
  .ok (urlunsplit ⟨scheme, netloc, path, query, []⟩, frag)

/-- The `URL` value object of `urls.py`: every precomputed field. -/
structure URL where
  url : List Char
  urlsplit : SplitRec
  netloc : List Char
  hostname : List Char
  hostname_without_www : List Char
  surt : List Char
  registered_domain : List Char
  original_frag : Option (List Char)
deriving DecidableEq, Repr

/-- The base-resolution step of `URL.__init__`: an absolute cleaned link is
kept, a `/…` (but not `//…`) link takes the fast path through the base's
scheme and hostname, anything else goes through the full `urljoin`. -/
def baseResolve (u1 : List Char) (base : Option URL) : Except PyErr (List Char) :=
  match base with
  | none => pure u1
  | some b =>
    if startsWith (chars "http://") u1 ∨ startsWith (chars "https://") u1 then
      pure u1
    else if startsWith (chars "/") u1 ∧ ¬ startsWith (chars "//") u1 then
      pure (b.urlsplit.scheme ++ chars "://" ++ b.hostname ++ u1)
    else pyUrljoin b.url u1

/-- The body of `URL.__init__` from the base-resolution step onward:
`u1` is the cleaned link, `base` the already-constructed base object. -/
def urlCore (u1 : List Char) (base : Option URL) : Except PyErr URL := do
  let u2 ← baseResolve u1 base
  let cf ← safe_url_canonicalization u2
  let cu := cf.1
  let ofrag := if 0 < cf.2.length then some cf.2 else none
  let sp ← pyUrlsplit cu
  let path := if sp.path.isEmpty then chars "/" else sp.path
  let netloc := netloc_to_punycanon sp.scheme sp.netloc
  let hostname := hostname_to_punycanon netloc
  let split2 : SplitRec := ⟨sp.scheme, netloc, path, sp.query, []⟩
  let urlF := urlunsplit split2
  .ok ⟨urlF, split2, netloc, hostname, discard_www_from_hostname hostname,
       surt cu, tldextract_registered_domain urlF, ofrag⟩

/-- The seed-handling step of `URL.__init__`. -/
def seedStep (url : List Char) (seed : Bool) : Except PyErr (List Char) :=
  if seed then special_seed_handling url else pure url

/-- Embedding of `URL.__init__(url, urljoin=…, seed=…)` from `urls.py`.  The
source guards the whole resolution block with `if urljoin:` — Python
truthiness — so `None` and the empty string are falsy (the block is skipped
entirely), while any non-empty string or `URL` object (the class defines no
truthiness hooks) is truthy; a truthy string base is converted by the
constructor itself (`URL(urljoin)`), exactly as the `isinstance` branch
does. -/
def URL.make (url : List Char) (join : Option (List Char ⊕ URL) := none)
    (seed : Bool := false) : Except PyErr URL := do
  let u0 ← seedStep url seed
  let u1 := clean_webpage_links u0
  match join with
  | none => urlCore u1 none
  | some (.inl bs) =>
    if bs.isEmpty then urlCore u1 none
    else do
      let b ← urlCore (clean_webpage_links bs) none
      urlCore u1 (some b)
  | some (.inr b) => urlCore u1 (some b)

/-- Embedding of `special_redirect(url, next_url)` from `urls.py`. -/
def special_redirect (u nu : URL) : Option (List Char) :=
  if 5 < ((u.url.length : Int) - (nu.url.length : Int)).natAbs then none
  else if u.url = nu.url then some (chars "same")
  else if ¬ endsWithL (chars "/") u.url ∧ u.url ++ chars "/" = nu.url then
    some (chars "addslash")
  else if endsWithL (chars "/") u.url ∧ u.url = nu.url ++ chars "/" then
    some (chars "removeslash")
  else if replaceFirstSub (chars "http") (chars "https") u.url = nu.url then
    some (chars "tohttps")
  else if startsWith (chars "https") u.url ∧
      replaceFirstSub (chars "https") (chars "http") u.url = nu.url then
    some (chars "tohttp")
  else if startsWith (chars "www.") u.urlsplit.netloc then
    if replaceFirstSub (chars "www.") [] u.url = nu.url then
      some (chars "tononwww")
    else if replaceFirstSub (chars "http") (chars "https")
        (replaceFirstSub (chars "www.") [] u.url) = nu.url then
      some (chars "tononwww+tohttps")
    else if startsWith (chars "https") u.url ∧
        replaceFirstSub (chars "https") (chars "http")
          (replaceFirstSub (chars "www.") [] u.url) = nu.url then
      some (chars "tononwww+tohttp")
    else none
  else if startsWith (chars "www.") nu.urlsplit.netloc then
    if u.url = replaceFirstSub (chars "www.") [] nu.url then
      some (chars "towww")
    else if replaceFirstSub (chars "www.") [] nu.url =
        replaceFirstSub (chars "http") (chars "https") u.url then
      some (chars "towww+tohttps")
    else if startsWith (chars "https") u.url ∧
        replaceFirstSub (chars "www.") [] nu.url =
          replaceFirstSub (chars "https") (chars "http") u.url then
      some (chars "towww+tohttp")
    else none
  else none

example : clean_webpage_links (chars "http:///example.com") = chars "http://example.com" := by decide
example : clean_webpage_links (chars "///x") = chars "//x" := by decide
example : clean_webpage_links (chars "http:\\\\example.com\\a") = chars "http://example.com/a" := by decide
example : (URL.make (chars "http://example.com")).map URL.url = .ok (chars "http://example.com/") := by rfl
example : (URL.make (chars "HTTP://Example.COM:80/a/./b/../c")).map URL.url = .ok (chars "http://example.com/a/c") := by rfl
example : (URL.make (chars "http://example.com/#a%41")).map URL.original_frag = .ok (some (chars "#aA")) := by rfl
example : (URL.make (chars "http://example.com/#")).map URL.original_frag = .ok none := by rfl

example : remove_dot_segments (chars "/a/b/../c") = .ok (chars "/a/c") := by decide
example : remove_dot_segments (chars "/../a") = .ok (chars "/a") := by decide
example : remove_dot_segments (chars "/a//b") = .ok (chars "/a/b") := by decide
example : remove_dot_segments (chars "/a/") = .ok (chars "/a/") := by decide
example : remove_dot_segments (chars "/") = .ok (chars "/") := by decide
example : remove_dot_segments (chars "") = .error .indexError := by decide
example : remove_dot_segments (chars "a/b") = .error .invalidPath := by decide

/-- A successful `remove_dot_segments` on a slash-led path, with its result. -/
theorem rds_ok_of_slash (path : List Char) (h : startsWith (chars "/") path = true) :
    ∃ r, remove_dot_segments path = .ok r ∧ startsWith (chars "/") r = true := by
  cases path with
  | nil => simp [startsWith, chars] at h
  | cons c t =>
    have hc : c = '/' := by
      simp [startsWith, chars] at h
      exact h.symm
    subst hc
    refine ⟨_, rfl, ?_⟩
    simp [startsWith, chars]

/-- Claim C3: for every path starting with `/`, `remove_dot_segments` drops
empty interior segments while keeping the leading and trailing ones, resolves
`..` (popping, or silently dropping at the root) and `.` (dropped), and
returns a `/`-joined result that always starts with `/`; in particular
`/a/b/../c ↦ /a/c`, `/../a ↦ /a`, `/a//b ↦ /a/b`, `/a/ ↦ /a/`. -/
theorem claim_C3 :
    (∀ path : List Char, startsWith (chars "/") path = true →
      ∃ r, remove_dot_segments path = .ok r ∧ startsWith (chars "/") r = true) ∧
    remove_dot_segments (chars "/a/b/../c") = .ok (chars "/a/c") ∧
    remove_dot_segments (chars "/../a") = .ok (chars "/a") ∧
    remove_dot_segments (chars "/a//b") = .ok (chars "/a/b") ∧
    remove_dot_segments (chars "/a/") = .ok (chars "/a/") :=
  ⟨rds_ok_of_slash, by decide, by decide, by decide, by decide⟩

/-- Witness for C3 at the concrete path `/a`. -/
theorem claim_C3_witness :
    ∃ r, remove_dot_segments (chars "/a") = .ok r ∧
      startsWith (chars "/") r = true :=
  claim_C3.1 (chars "/a") (by decide)

/-- Counterexample for C4 as stated: on the empty string — which does not
start with `/` — the code raises `IndexError` from `path[0]`, not the
InvalidPath `ValueError`, so "raises the InvalidPath error iff the path does
not start with `/`" fails at `path = ""`. -/
theorem claim_C4_counterexample :
    remove_dot_segments (chars "") = .error .indexError ∧
      PyErr.indexError ≠ PyErr.invalidPath := by decide

/-- Claim C4 (amended): for every non-empty path, `remove_dot_segments`
raises the InvalidPath error iff the path does not start with `/`; it returns
normally whenever the path starts with `/`; the empty path instead raises an
IndexError. -/
theorem claim_C4 :
    (∀ path : List Char, path ≠ [] →
      (remove_dot_segments path = .error .invalidPath ↔
        startsWith (chars "/") path = false)) ∧
    (∀ path : List Char, startsWith (chars "/") path = true →
      ∃ r, remove_dot_segments path = .ok r) ∧
    remove_dot_segments [] = .error .indexError := by
  refine ⟨?_, ?_, by decide⟩
  · intro path hne
    cases path with
    | nil => exact absurd rfl hne
    | cons c t =>
      by_cases hc : c = '/'
      · subst hc
        constructor
        · intro h
          simp [remove_dot_segments] at h
        · intro h
          simp [startsWith, chars] at h
      · constructor
        · intro _
          simp [startsWith, chars, Ne.symm hc]
        · intro _
          simp [remove_dot_segments, hc]
  · intro path h
    obtain ⟨r, hr, _⟩ := rds_ok_of_slash path h
    exact ⟨r, hr⟩

/-- Witness for C4 at the concrete path `x`. -/
theorem claim_C4_witness :
    remove_dot_segments (chars "x") = .error .invalidPath ↔
      startsWith (chars "/") (chars "x") = false :=
  claim_C4.1 (chars "x") (by decide)

/-- Reduction of a bind of an immediate success, stated for the exception
monad of this development. -/
theorem bindOk {α β : Type} (a : α) (f : α → Except PyErr β) :
    (Except.ok a : Except PyErr α) >>= f = f a := rfl

/-- The URL object built from the empty string: the empty url canonicalizes
to the bare path `/`. -/
def emptyBaseURL : URL :=
  ⟨chars "/", ⟨[], [], chars "/", [], []⟩, [], [], [], chars "/", [], none⟩

/-- Counterexample for C10 as stated: `URL('')` constructs successfully (its
canonical url is `/`), yet the empty base string is falsy for the
`if urljoin:` guard, so `URL('a', urljoin='')` skips resolution and fails
with InvalidPath, while `URL('a', urljoin=URL(''))` resolves against `/` and
succeeds with url `/a` — the two base forms are not equivalent at `b = ""`. -/
theorem claim_C10_counterexample :
    URL.make (chars "") none false = .ok emptyBaseURL ∧
    URL.make (chars "a") (some (.inl (chars ""))) false =
      .error PyErr.invalidPath ∧
    (URL.make (chars "a") (some (.inr emptyBaseURL)) false).map URL.url =
      .ok (chars "/a") :=
  ⟨rfl, rfl, rfl⟩

/-- Claim C10 (amended): passing the base as a string or as a URL object is
equivalent for every non-empty base string — the `isinstance` branch
converts the string with `URL(urljoin)` and everything afterwards is
identical, so both constructions return the same `Except` result (hence
agree on success/failure and on every field); the empty base string,
however, is falsy for the `if urljoin:` guard, so resolution is skipped
entirely and construction behaves exactly as with no base at all. -/
theorem claim_C10 :
    (∀ (link b : List Char) (bo : URL), b ≠ [] →
      URL.make b none false = .ok bo →
      URL.make link (some (.inl b)) false =
        URL.make link (some (.inr bo)) false) ∧
    (∀ link : List Char,
      URL.make link (some (.inl [])) false = URL.make link none false) := by
  constructor
  · intro link b bo hb h
    simp only [URL.make, seedStep, Bool.false_eq_true, if_false, pure_bind] at h ⊢
    rw [if_neg (by simpa [List.isEmpty_iff] using hb), h]
    exact bindOk bo _
  · intro link
    simp only [URL.make, seedStep, Bool.false_eq_true, if_false, pure_bind]
    rw [if_pos List.isEmpty_nil]

set_option maxHeartbeats 2000000 in
/-- Witness for C10 with the non-empty base `http://example.com` and link
`/a`. -/
theorem claim_C10_witness :
    ∃ bo, URL.make (chars "http://example.com") none false = .ok bo ∧
      URL.make (chars "/a") (some (.inl (chars "http://example.com"))) false =
        URL.make (chars "/a") (some (.inr bo)) false :=
  ⟨_, rfl, claim_C10.1 (chars "/a") (chars "http://example.com") _ (by decide) rfl⟩

/-- Counterexample for C7 as stated: the spec's addslash example pair both
canonicalize to `http://example.com/` (the empty path defaults to `/` during
construction), so `special_redirect` returns `same`, not `addslash`. -/
theorem claim_C7_counterexample :
    ((URL.make (chars "http://example.com")).bind fun a =>
      (URL.make (chars "http://example.com/")).map fun b =>
        special_redirect a b) = .ok (some (chars "same")) ∧
    some (chars "same") ≠ some (chars "addslash") :=
  ⟨rfl, by decide⟩

/-- Claim C7 (amended): `special_redirect` returns unclassified (`none`)
whenever the canonical string lengths differ by more than 5, before any other
comparison; the `tohttps` and `tononwww` examples hold as stated; the
addslash example must use URL objects whose canonical urls actually differ by
the trailing slash, e.g. `http://example.com/a` versus
`http://example.com/a/` (the original pair canonicalizes to equal strings and
yields `same`). -/
theorem claim_C7 :
    (∀ u nu : URL, 5 < ((u.url.length : Int) - (nu.url.length : Int)).natAbs →
      special_redirect u nu = none) ∧
    ((URL.make (chars "http://example.com/a")).bind fun a =>
      (URL.make (chars "http://example.com/a/")).map fun b =>
        special_redirect a b) = .ok (some (chars "addslash")) ∧
    ((URL.make (chars "http://example.com")).bind fun a =>
      (URL.make (chars "https://example.com")).map fun b =>
        special_redirect a b) = .ok (some (chars "tohttps")) ∧
    ((URL.make (chars "http://www.example.com")).bind fun a =>
      (URL.make (chars "http://example.com")).map fun b =>
        special_redirect a b) = .ok (some (chars "tononwww")) := by
  refine ⟨?_, rfl, rfl, rfl⟩
  intro u nu h
  unfold special_redirect
  rw [if_pos h]

/-- Two concrete URL values whose canonical strings differ in length by more
than 5, for the C7 witness. -/
def c7shortURL : URL :=
  ⟨chars "http://a/", ⟨chars "http", chars "a", chars "/", [], []⟩,
   chars "a", chars "a", chars "a", chars "http://a/", [], none⟩

/-- The longer of the two C7 witness values. -/
def c7longURL : URL :=
  ⟨chars "http://abcdefghij/",
   ⟨chars "http", chars "abcdefghij", chars "/", [], []⟩,
   chars "abcdefghij", chars "abcdefghij", chars "abcdefghij",
   chars "http://abcdefghij/", [], none⟩

/-- Witness for C7's short-circuit at a concrete pair of URL objects. -/
theorem claim_C7_witness : special_redirect c7shortURL c7longURL = none :=
  claim_C7.1 c7shortURL c7longURL (by decide)

/-- The runaway-link truncation is exactly "take until the first terminator":
when no terminator occurs the regex leaves the link unchanged, which is the
same as taking the whole string. -/
theorem truncTerm_eq (l : List Char) :
    truncTerm l = l.takeWhile (fun c => !(isTerm c)) := by
  unfold truncTerm
  by_cases h : l.any isTerm
  · rw [if_pos h]
  · rw [if_neg h, Eq.comm, List.takeWhile_eq_self_iff]
    intro x hx
    simp only [List.any_eq_true, not_exists, not_and] at h
    simp [h x hx]

set_option maxRecDepth 4000 in
/-- Claim C8: for every link whose sanitized form exceeds 300 characters,
`clean_webpage_links` truncates it at the first occurrence of
`< > " ' CR LF space` and returns the empty string when the truncation is
still longer than 300; in particular a 400-character terminator-free link
yields the empty string. -/
theorem claim_C8 :
    (∀ link : List Char, 300 < (cleanPre link).length →
      clean_webpage_links link =
        (if 300 < ((cleanPre link).takeWhile (fun c => !(isTerm c))).length then []
         else ((((cleanPre link).takeWhile (fun c => !(isTerm c))).filter
            (· ≠ '\r')).filter (· ≠ '\n')))) ∧
    clean_webpage_links (List.replicate 400 'a') = [] := by
  refine ⟨?_, by decide⟩
  intro link h
  unfold clean_webpage_links
  rw [if_pos h, truncTerm_eq]

set_option maxRecDepth 4000 in
/-- Witness for C8 at the concrete 400-character link. -/
theorem claim_C8_witness :
    clean_webpage_links (List.replicate 400 'a') =
      (if 300 < ((cleanPre (List.replicate 400 'a')).takeWhile
            (fun c => !(isTerm c))).length then []
       else ((((cleanPre (List.replicate 400 'a')).takeWhile
            (fun c => !(isTerm c))).filter (· ≠ '\r')).filter (· ≠ '\n'))) :=
  claim_C8.1 (List.replicate 400 'a') (by decide)

/-- The scheme prefixes accepted by the `(?:https?:)?` part of the cleanup
regexes: nothing, or a case-insensitive `http:` or `https:`. -/
def schemeOpt (pre : List Char) : Prop :=
  pre = [] ∨ lowerStr pre = chars "http:" ∨ lowerStr pre = chars "https:"

/-- Lower-casing distributes over append. -/
theorem lowerStr_append (a b : List Char) :
    lowerStr (a ++ b) = lowerStr a ++ lowerStr b := List.map_append _ _ _

/-- A slash or backslash is unchanged by lower-casing and is not `h`, so a
string starting with one can never case-fold to `https:` or `http:`. -/
theorem lowerStr_take_ne (t : List Char) (c : Char) (hc : c = '/' ∨ c = '\\')
    (ht : t.head? = some c) (m : Nat) (w : List Char) (hw : w.head? = some 'h') :
    lowerStr (t.take m) ≠ w := by
  intro he
  have hh := congrArg List.head? he
  cases t with
  | nil => simp at ht
  | cons c0 t' =>
    obtain rfl : c0 = c := by simpa using ht
    cases m with
    | zero =>
      rw [hw] at hh
      simp [lowerStr] at hh
    | succ m' =>
      rw [hw] at hh
      simp only [List.take, lowerStr, List.map_cons, List.head?_cons,
        Option.some.injEq] at hh
      rcases hc with rfl | rfl <;> simp [lowerChar] at hh

/-- On input `pre ++ t` with `pre` an optional scheme and `t` starting with a
slash or backslash, the optional-scheme matcher recovers exactly `pre`. -/
theorem schemeOptPart_append (pre t : List Char) (h : schemeOpt pre) (c : Char)
    (hc : c = '/' ∨ c = '\\') (ht : t.head? = some c) :
    schemeOptPart (pre ++ t) = pre := by
  rcases h with hpre | hpre | hpre
  · subst hpre
    simp only [List.nil_append]
    unfold schemeOptPart
    rw [if_neg (lowerStr_take_ne t c hc ht 6 (chars "https:") rfl),
      if_neg (lowerStr_take_ne t c hc ht 5 (chars "http:") rfl)]
  · have hlen : pre.length = 5 := by
      have := congrArg List.length hpre
      simpa [lowerStr, chars] using this
    have htake5 : (pre ++ t).take 5 = pre := List.take_left' hlen
    have htake6 : (pre ++ t).take 6 = pre ++ t.take 1 := by
      have h16 := @List.take_append _ pre t 1
      rw [hlen] at h16
      simpa using h16
    unfold schemeOptPart
    have hne : lowerStr ((pre ++ t).take 6) ≠ chars "https:" := by
      intro he
      rw [htake6, lowerStr_append, hpre] at he
      have h5 := congrArg (List.take 5) he
      rw [@List.take_left' _ (chars "http:") (lowerStr (t.take 1)) 5 (by decide)] at h5
      exact absurd h5 (by decide)
    rw [if_neg hne, if_pos (by rw [htake5, hpre]), htake5]
  · have hlen : pre.length = 6 := by
      have := congrArg List.length hpre
      simpa [lowerStr, chars] using this
    have htake6 : (pre ++ t).take 6 = pre := List.take_left' hlen
    unfold schemeOptPart
    rw [if_pos (by rw [htake6, hpre]), htake6]

/-- Taking the leading run of a repeated character from `replicate n a ++
rest` yields exactly the `n` copies when `rest` does not continue the run. -/
theorem takeWhile_run (a : Char) (n : Nat) (rest : List Char)
    (hr : rest.head? ≠ some a) :
    (List.replicate n a ++ rest).takeWhile (· = a) = List.replicate n a := by
  rw [List.takeWhile_append]
  have hself : (List.replicate n a).takeWhile (· = a) = List.replicate n a := by
    rw [List.takeWhile_eq_self_iff]
    intro x hx
    simp [List.eq_of_mem_replicate hx]
  rw [hself, if_pos rfl]
  cases rest with
  | nil => simp
  | cons c t =>
    have hca : c ≠ a := by
      intro hc
      exact hr (by simp [hc])
    rw [List.takeWhile_cons, if_neg (by simp [hca])]
    simp

/-- The slash-collapsing step rewrites a scheme-optional run of three or
more slashes to exactly `//`, keeping the scheme prefix and the remainder. -/
theorem slashFix_collapse (pre rest : List Char) (n : Nat) (h : schemeOpt pre)
    (hn : 3 ≤ n) (hr : rest.head? ≠ some '/') :
    slashFix (pre ++ (List.replicate n '/' ++ rest)) =
      pre ++ chars "//" ++ rest := by
  have hhead : (List.replicate n '/' ++ rest).head? = some '/' := by
    cases n with
    | zero => omega
    | succ m => simp [List.replicate_succ]
  have hsch : schemeOptPart (pre ++ (List.replicate n '/' ++ rest)) = pre :=
    schemeOptPart_append pre _ h '/' (Or.inl rfl) hhead
  unfold slashFix
  rw [hsch]
  simp only [List.drop_left, takeWhile_run _ _ _ hr, List.length_replicate]
  rw [if_pos hn, List.drop_left' (List.length_replicate n '/')]

/-- The backslash-collapsing step rewrites a scheme-optional run of two or
more backslashes to exactly `//`. -/
theorem backslashFix_collapse (pre rest : List Char) (n : Nat)
    (h : schemeOpt pre) (hn : 2 ≤ n) (hr : rest.head? ≠ some '\\') :
    backslashFix (pre ++ (List.replicate n '\\' ++ rest)) =
      pre ++ chars "//" ++ rest := by
  have hhead : (List.replicate n '\\' ++ rest).head? = some '\\' := by
    cases n with
    | zero => omega
    | succ m => simp [List.replicate_succ]
  have hsch : schemeOptPart (pre ++ (List.replicate n '\\' ++ rest)) = pre :=
    schemeOptPart_append pre _ h '\\' (Or.inr rfl) hhead
  unfold backslashFix
  rw [hsch]
  simp only [List.drop_left, takeWhile_run _ _ _ hr, List.length_replicate]
  rw [if_pos hn, List.drop_left' (List.length_replicate n '\\')]

/-- Claim C9: the link sanitizer collapses a scheme-optional run of three or
more slashes to exactly `//` (preserving the scheme prefix), likewise
collapses a run of two or more backslashes, and in particular maps
`http:///example.com` to `http://example.com`. -/
theorem claim_C9 :
    (∀ (pre rest : List Char) (n : Nat), schemeOpt pre → 3 ≤ n →
      rest.head? ≠ some '/' →
      slashFix (pre ++ (List.replicate n '/' ++ rest)) =
        pre ++ chars "//" ++ rest) ∧
    (∀ (pre rest : List Char) (n : Nat), schemeOpt pre → 2 ≤ n →
      rest.head? ≠ some '\\' →
      backslashFix (pre ++ (List.replicate n '\\' ++ rest)) =
        pre ++ chars "//" ++ rest) ∧
    clean_webpage_links (chars "http:///example.com") = chars "http://example.com" :=
  ⟨fun pre rest n h hn hr => slashFix_collapse pre rest n h hn hr,
   fun pre rest n h hn hr => backslashFix_collapse pre rest n h hn hr,
   by decide⟩

/-- Witness for C9: scheme `http:`, a run of three slashes, remainder
`example.com`. -/
theorem claim_C9_witness :
    slashFix (chars "http:" ++ (List.replicate 3 '/' ++ chars "example.com")) =
      chars "http:" ++ chars "//" ++ chars "example.com" :=
  claim_C9.1 (chars "http:") (chars "example.com") 3
    (Or.inr (Or.inl (by decide))) (by decide) (by decide)

/-- Round-trip of `Char.ofNat` through `toNat` on valid scalar values. -/
theorem toNat_ofNat_valid (n : Nat) (h : n.isValidChar) :
    (Char.ofNat n).toNat = n := by
  simp [Char.ofNat, h, Char.ofNatAux, Char.toNat, UInt32.toNat]

/-- Lower-casing can only produce a lowercase letter or leave the character
unchanged, so any non-lowercase-letter output pins down the input. -/
theorem lowerChar_eq_outside (d c : Char)
    (hc : ¬ (97 ≤ c.toNat ∧ c.toNat ≤ 122)) (h : lowerChar d = c) : d = c := by
  unfold lowerChar at h
  split at h
  · rename_i hAZ
    obtain ⟨h1, h2⟩ := hAZ
    rw [Char.le_def] at h1 h2
    have h1' : 65 ≤ d.toNat := h1
    have h2' : d.toNat ≤ 90 := h2
    have hv : (d.toNat + 32).isValidChar := Or.inl (by
      change d.toNat + 32 < 55296
      omega)
    have htn := congrArg Char.toNat h
    rw [toNat_ofNat_valid _ hv] at htn
    exact absurd (by omega : 97 ≤ c.toNat ∧ c.toNat ≤ 122) hc
  · exact h

/-- Membership transfer along `lowerStr` for characters outside the lowercase
range. -/
theorem mem_of_mem_lowerStr (l : List Char) (c : Char)
    (hc : ¬ (97 ≤ c.toNat ∧ c.toNat ≤ 122)) (h : c ∈ lowerStr l) : c ∈ l := by
  obtain ⟨d, hd, hdc⟩ := List.mem_map.1 h
  rwa [lowerChar_eq_outside d c hc hdc] at hd

/-- The separator never survives into the first half of `splitFirst`. -/
theorem splitFirst_fst_not_mem (sep : Char) (t : List Char) :
    sep ∉ (splitFirst sep t).1 := by
  unfold splitFirst
  split
  · intro hmem
    have := List.mem_takeWhile_imp hmem
    simp at this
  · rename_i hns
    exact hns

/-- Both halves of `splitFirst` are made of characters of the input. -/
theorem splitFirst_subset (sep : Char) (t : List Char) (c : Char) :
    (c ∈ (splitFirst sep t).1 → c ∈ t) ∧ (c ∈ (splitFirst sep t).2 → c ∈ t) := by
  unfold splitFirst
  split
  · constructor
    · exact fun h => (List.takeWhile_sublist _).mem h
    · exact fun h => (List.dropWhile_sublist _).mem ((List.drop_sublist _ _).mem h)
  · constructor
    · exact fun h => h
    · intro h
      simp at h

/-- The scheme produced by `schemeSplit` carries no `#` when the default
does not. -/
theorem schemeSplit_no_hash (u d : List Char) (hd : '#' ∉ d) :
    '#' ∉ (schemeSplit u d).1 := by
  unfold schemeSplit
  split
  · split
    · rename_i hcond
      intro hmem
      have hmem' := mem_of_mem_lowerStr _ _ (by decide) hmem
      have := List.all_eq_true.1 hcond.2 _ hmem'
      simp [schemeChar] at this
    · exact hd
  · exact hd

/-- The netloc produced by `netlocSplit` carries no `#`. -/
theorem netlocSplit_no_hash (rest : List Char) : '#' ∉ (netlocSplit rest).1 := by
  unfold netlocSplit
  split
  · intro hmem
    have := List.mem_takeWhile_imp hmem
    simp [netDelim] at this
  · simp

/-- All four non-fragment components released by a successful `urlsplit`
carry no `#` (with a `#`-free default scheme). -/
theorem urlsplit_no_hash (u d : List Char) (sp : SplitRec) (hd : '#' ∉ d)
    (h : urlsplitD u d = .ok sp) :
    '#' ∉ sp.scheme ∧ '#' ∉ sp.netloc ∧ '#' ∉ sp.path ∧ '#' ∉ sp.query := by
  simp only [urlsplitD] at h
  split at h
  · exact absurd h (by simp)
  · injection h with h
    subst h
    refine ⟨schemeSplit_no_hash u d hd, netlocSplit_no_hash _, ?_, ?_⟩
    · intro hmem
      exact splitFirst_fst_not_mem '#' _
        ((splitFirst_subset '?' _ '#').1 hmem)
    · intro hmem
      exact splitFirst_fst_not_mem '#' _
        ((splitFirst_subset '?' _ '#').2 hmem)

/-- The netloc canonicalization model introduces no `#`. -/
theorem punycanon_no_hash (scheme netloc : List Char) (h : '#' ∉ netloc) :
    '#' ∉ netloc_to_punycanon scheme netloc := by
  unfold netloc_to_punycanon
  have hl : '#' ∉ lowerStr netloc := fun hm =>
    h (mem_of_mem_lowerStr _ _ (by decide) hm)
  split
  · exact fun hm => hl ((List.take_sublist _ _).mem hm)
  · split
    · exact fun hm => hl ((List.take_sublist _ _).mem hm)
    · exact hl

/-- The two-slash separator written out as characters. -/
theorem chars_slashslash : chars "//" = ['/', '/'] := rfl

/-- Reassembling `#`-free components with an empty fragment yields a
`#`-free url. -/
theorem urlunsplit_no_hash (r : SplitRec) (hs : '#' ∉ r.scheme)
    (hn : '#' ∉ r.netloc) (hp : '#' ∉ r.path) (hq : '#' ∉ r.query)
    (hf : r.fragment = []) : '#' ∉ urlunsplit r := by
  intro hmem
  unfold urlunsplit at hmem
  rw [hf] at hmem
  simp [List.mem_append, List.mem_cons, chars_slashslash,
    apply_ite (fun l : List Char => '#' ∈ l), ite_self,
    hs, hn, hp, hq] at hmem

/-- Inversion for a successful bind in the exception monad. -/
theorem bind_eq_ok {α β : Type} {a : Except PyErr α} {f : α → Except PyErr β}
    {x : β} (h : a >>= f = .ok x) : ∃ v, a = .ok v ∧ f v = .ok x := by
  cases a with
  | error e => exact absurd h (by simp [Bind.bind, Except.bind])
  | ok v => exact ⟨v, rfl, h⟩

/-- Every successfully built URL object satisfies the §3 invariants checked
by claim C5: non-empty path, empty structural fragment, no `#` in the
canonical string. -/
theorem urlCore_invariants (u1 : List Char) (base : Option URL) (x : URL)
    (h : urlCore u1 base = .ok x) :
    x.urlsplit.path ≠ [] ∧ x.urlsplit.fragment = [] ∧ '#' ∉ x.url := by
  simp only [urlCore] at h
  obtain ⟨u2, hu2, h⟩ := bind_eq_ok h
  obtain ⟨cf, hcf, h⟩ := bind_eq_ok h
  obtain ⟨sp, hsp, h⟩ := bind_eq_ok h
  simp only [pure, Except.pure, Except.ok.injEq] at h
  subst h
  obtain ⟨hss, hsn, hspath, hsq⟩ :=
    urlsplit_no_hash cf.1 [] sp (by simp) hsp
  refine ⟨?_, rfl, ?_⟩
  · simp only
    split
    · decide
    · rename_i hne
      intro hnil
      simp [hnil] at hne
  · show '#' ∉ urlunsplit ⟨sp.scheme, netloc_to_punycanon sp.scheme sp.netloc,
      (if sp.path.isEmpty = true then chars "/" else sp.path), sp.query, []⟩
    apply urlunsplit_no_hash
    · exact hss
    · exact punycanon_no_hash _ _ hsn
    · simp only
      split
      · decide
      · exact hspath
    · exact hsq
    · rfl

/-- Claim C5: for every successfully constructed URL object, the path
component of `urlsplit` is non-empty (an empty path defaults to `/`), the
fragment component is the empty string, and the canonical string contains no
`#`. -/
theorem claim_C5 :
    ∀ (url : List Char) (join : Option (List Char ⊕ URL)) (seed : Bool) (x : URL),
      URL.make url join seed = .ok x →
      x.urlsplit.path ≠ [] ∧ x.urlsplit.fragment = [] ∧ '#' ∉ x.url := by
  intro url join seed x h
  simp only [URL.make] at h
  obtain ⟨u0, hu0, h⟩ := bind_eq_ok h
  rcases join with _ | bv
  · exact urlCore_invariants _ _ _ h
  · rcases bv with bs | b
    · have h' : (if bs.isEmpty then urlCore (clean_webpage_links u0) none
          else do
            let b ← urlCore (clean_webpage_links bs) none
            urlCore (clean_webpage_links u0) (some b)) = .ok x := h
      split at h'
      · exact urlCore_invariants _ _ _ h'
      · obtain ⟨b, hb, h'⟩ := bind_eq_ok h'
        exact urlCore_invariants _ _ _ h'
    · exact urlCore_invariants _ _ _ h

set_option maxHeartbeats 1000000 in
/-- Witness for C5 at the concrete construction of `http://example.com`. -/
theorem claim_C5_witness :
    ∃ x, URL.make (chars "http://example.com") none false = .ok x ∧
      (x.urlsplit.path ≠ [] ∧ x.urlsplit.fragment = [] ∧ '#' ∉ x.url) :=
  ⟨_, rfl, claim_C5 (chars "http://example.com") none false _ rfl⟩

/-- Counterexample for C6 as stated: the stored fragment is the
percent-decoded one, not the verbatim original — `#a%3Ab` is stored as
`#a:b`. -/
theorem claim_C6_counterexample :
    (URL.make (chars "http://example.com/#a%3Ab")).map URL.original_frag =
      .ok (some (chars "#a:b")) ∧
    chars "#a:b" ≠ chars "#a%3Ab" :=
  ⟨rfl, by decide⟩

/-- Claim C6 (amended): for every successfully constructed URL object,
`original_frag` is `#` followed by the fragment-safe-set percent-decoding of
the fragment component of the resolved input (after the whole-url unreserved
decode), not the verbatim original fragment; it is absent (None) iff that
fragment component is the empty string — in particular an input ending in a
bare `#` also yields None. -/
theorem claim_C6 :
    (∀ (u1 : List Char) (base : Option URL) (x : URL), urlCore u1 base = .ok x →
      ∃ u2 cu fr, baseResolve u1 base = .ok u2 ∧
        safe_url_canonicalization u2 = .ok (cu, fr) ∧
        x.original_frag = (if 0 < fr.length then some fr else none)) ∧
    (∀ (u cu fr : List Char), safe_url_canonicalization u = .ok (cu, fr) →
      ∀ (uq : List Char) (sp : SplitRec), unquote u unreservedSet = some uq →
        urlsplitD uq [] = .ok sp →
        ((fr = [] ↔ sp.fragment = []) ∧
         (sp.fragment ≠ [] → ∃ g, unquote sp.fragment unquoteInFrag = some g ∧
            fr = '#' :: g))) ∧
    (URL.make (chars "http://example.com/#")).map URL.original_frag = .ok none := by
  refine ⟨?_, ?_, rfl⟩
  · intro u1 base x h
    simp only [urlCore] at h
    obtain ⟨u2, hu2, h⟩ := bind_eq_ok h
    obtain ⟨cf, hcf, h⟩ := bind_eq_ok h
    obtain ⟨sp, hsp, h⟩ := bind_eq_ok h
    simp only [pure, Except.pure, Except.ok.injEq] at h
    subst h
    exact ⟨u2, cf.1, cf.2, hu2, hcf, rfl⟩
  · intro u cu fr h uq sp huq hsp
    simp only [safe_url_canonicalization] at h
    obtain ⟨uq', huq', h⟩ := bind_eq_ok h
    rw [huq] at huq'
    simp only [optExcept, Except.ok.injEq] at huq'
    subst huq'
    obtain ⟨sp', hsp', h⟩ := bind_eq_ok h
    have hsp'' : urlsplitD uq [] = .ok sp' := hsp'
    rw [hsp] at hsp''
    injection hsp'' with hsp''
    subst hsp''
    obtain ⟨p1, hp1, h⟩ := bind_eq_ok h
    obtain ⟨p2, hp2, h⟩ := bind_eq_ok h
    obtain ⟨q, hq, h⟩ := bind_eq_ok h
    obtain ⟨fg, hfg, h⟩ := bind_eq_ok h
    simp only [pure, Except.pure, Except.ok.injEq, Prod.mk.injEq] at h
    obtain ⟨-, hfr⟩ := h
    subst hfr
    unfold canonFrag at hfg
    by_cases hempty : sp.fragment = []
    · rw [hempty] at hfg
      simp only [List.isEmpty_nil, not_true_eq_false, if_false] at hfg
      simp only [pure, Except.pure, Except.ok.injEq] at hfg
      subst hfg
      exact ⟨by simp [hempty], fun hne => absurd hempty hne⟩
    · rw [if_pos (by simp [List.isEmpty_iff, hempty])] at hfg
      cases hg : unquote sp.fragment unquoteInFrag with
      | none =>
        rw [hg] at hfg
        exact absurd hfg (by simp [optExcept, Except.map])
      | some g =>
        rw [hg] at hfg
        simp only [optExcept, Except.map_ok, Except.ok.injEq] at hfg
        subst hfg
        refine ⟨⟨fun hc => absurd hc (by simp), fun hc => absurd hc hempty⟩,
          fun _ => ⟨g, rfl, rfl⟩⟩

set_option maxHeartbeats 1000000 in
/-- Witness for C6's general parts at the concrete input
`http://example.com/#a%3Ab`. -/
theorem claim_C6_witness :
    ∃ u2 cu fr,
      baseResolve (clean_webpage_links (chars "http://example.com/#a%3Ab")) none =
        .ok u2 ∧
      safe_url_canonicalization u2 = .ok (cu, fr) ∧
      ∃ x, urlCore (clean_webpage_links (chars "http://example.com/#a%3Ab")) none =
          .ok x ∧
        x.original_frag = (if 0 < fr.length then some fr else none) := by
  obtain ⟨u2, cu, fr, h1, h2, h3⟩ :=
    claim_C6.1 (clean_webpage_links (chars "http://example.com/#a%3Ab")) none _ rfl
  exact ⟨u2, cu, fr, h1, h2, _, rfl, h3⟩

/-- A well-formed safe-set in the sense of claim C2: every member is a pair
of uppercase hex digits. -/
def validSafeB (safe : List (List Char)) : Bool :=
  safe.all fun q =>
    match q with
    | [a, b] => isUpperHexDigit a ∧ isUpperHexDigit b
    | _ => false

/-- Re-glue the pieces produced by splitting at `'%'`: each piece gets its
`'%'` back. -/
def joinTail (ps : List (List Char)) : List Char :=
  (ps.map (fun p => '%' :: p)).flatten

/-- The specification scanner for `unquote`, written as the amended claim
describes it: a single forward scan; at a `'%'` the following run of
non-`'%'` characters is examined — a leading pair of hex digits (of uniform
case) is decoded when its uppercased form is in the safe-set, re-emitted
uppercased when not, and anything else is passed through unchanged; a piece
passed through as a bare `'%'` (the literal-`%%` rule) makes the next piece
come out raw. -/
def uspecGo (safe : List (List Char)) : Bool → List Char → List Char
  | _, [] => []
  | raw, c :: cs =>
    if c = '%' then
      if raw then
        '%' :: (cs.takeWhile (· ≠ '%') ++
          uspecGo safe (cs.takeWhile (· ≠ '%')).isEmpty (cs.dropWhile (· ≠ '%')))
      else if validHex ((cs.takeWhile (· ≠ '%')).take 2) ∧
          quoteOf (cs.takeWhile (· ≠ '%')) ∈ safe then
        Char.ofNat ((hexVal (quoteOf (cs.takeWhile (· ≠ '%')))).getD 0) ::
          ((cs.takeWhile (· ≠ '%')).drop 2 ++
            uspecGo safe false (cs.dropWhile (· ≠ '%')))
      else if validHex ((cs.takeWhile (· ≠ '%')).take 2) then
        '%' :: (quoteOf (cs.takeWhile (· ≠ '%')) ++
          (cs.takeWhile (· ≠ '%')).drop 2 ++
          uspecGo safe false (cs.dropWhile (· ≠ '%')))
      else
        '%' :: (cs.takeWhile (· ≠ '%') ++
          uspecGo safe (cs.takeWhile (· ≠ '%')).isEmpty (cs.dropWhile (· ≠ '%')))
    else c :: uspecGo safe false cs
termination_by _ l => l.length
decreasing_by
  all_goals simp_wf
  all_goals first
    | exact Nat.lt_succ_of_le (List.Sublist.length_le (List.dropWhile_sublist _))
    | exact Nat.lt_succ_self _

/-- Characters are recovered injectively from their scalar value. -/
theorem char_toNat_inj (a b : Char) (h : a.toNat = b.toNat) : a = b := by
  apply Char.eq_of_val_eq
  apply UInt32.eq_of_toBitVec_eq
  exact BitVec.eq_of_toNat_eq h

/-- Gluing distributes over a new piece. -/
theorem joinTail_cons (q : List Char) (ps : List (List Char)) :
    joinTail (q :: ps) = '%' :: (q ++ joinTail ps) := rfl

/-- Splitting at `'%'` reconstructs the input and yields `'%'`-free pieces. -/
theorem pySplit_pct_spec (t : List Char) :
    (pySplit '%' t).1 ++ joinTail (pySplit '%' t).2 = t ∧
    '%' ∉ (pySplit '%' t).1 ∧ ∀ q ∈ (pySplit '%' t).2, '%' ∉ q := by
  induction t with
  | nil => simp [pySplit, joinTail]
  | cons c t ih =>
    obtain ⟨ih1, ih2, ih3⟩ := ih
    by_cases hc : c = '%'
    · subst hc
      have hstep : pySplit '%' ('%' :: t) =
          ([], (pySplit '%' t).1 :: (pySplit '%' t).2) := rfl
      rw [hstep]
      refine ⟨?_, by simp, ?_⟩
      · rw [List.nil_append, joinTail_cons, ih1]
      · intro q hq
        rcases List.mem_cons.1 hq with hq | hq
        · exact hq ▸ ih2
        · exact ih3 q hq
    · have hstep : pySplit '%' (c :: t) =
          (c :: (pySplit '%' t).1, (pySplit '%' t).2) := by
        simp only [pySplit, if_neg hc]
      rw [hstep]
      refine ⟨?_, ?_, ih3⟩
      · rw [List.cons_append, ih1]
      · intro hmem
        rcases List.mem_cons.1 hmem with hmem | hmem
        · exact hc hmem.symm
        · exact ih2 hmem

/-- The scanner copies `'%'`-free text verbatim (in the non-raw state). -/
theorem uspecGo_copy (safe : List (List Char)) (p : List Char) (hp : '%' ∉ p)
    (t : List Char) :
    uspecGo safe false (p ++ t) = p ++ uspecGo safe false t := by
  induction p with
  | nil => rfl
  | cons c p ih =>
    have hc : c ≠ '%' := fun hcc => hp (by simp [hcc])
    have hp' : '%' ∉ p := fun hm => hp (by simp [hm])
    rw [List.cons_append, uspecGo, if_neg hc, ih hp']
    rfl

/-- On `p ++ joinTail ps` with `'%'`-free `p`, the `takeWhile`/`dropWhile`
pair used by the scanner recovers exactly `p` and the glued tail. -/
theorem scanSplit_nopct (p : List Char) (hp : '%' ∉ p) (ps : List (List Char)) :
    (p ++ joinTail ps).takeWhile (· ≠ '%') = p ∧
    (p ++ joinTail ps).dropWhile (· ≠ '%') = joinTail ps := by
  have hself : p.takeWhile (· ≠ '%') = p := by
    rw [List.takeWhile_eq_self_iff]
    intro x hx
    have hxne : x ≠ '%' := fun hxx => hp (hxx ▸ hx)
    simp [hxne]
  have hdrop : p.dropWhile (· ≠ '%') = [] := by
    rw [List.dropWhile_eq_nil_iff]
    intro x hx
    have hxne : x ≠ '%' := fun hxx => hp (hxx ▸ hx)
    simp [hxne]
  cases ps with
  | nil =>
    constructor
    · simp only [joinTail, List.map_nil, List.flatten_nil, List.append_nil]
      exact hself
    · simp only [joinTail, List.map_nil, List.flatten_nil, List.append_nil]
      exact hdrop
  | cons q ps =>
    have hjoin : joinTail (q :: ps) = '%' :: (q ++ joinTail ps) := rfl
    constructor
    · rw [hjoin, List.takeWhile_append, hself, if_pos rfl,
        List.takeWhile_cons, if_neg (by simp)]
      simp
    · rw [hjoin, List.dropWhile_append, hdrop]
      rw [if_pos (by simp), List.dropWhile_cons, if_neg (by simp)]

/-- The ends-with-percent test on a cons with a `'%'`-free tail. -/
theorem endsPct_cons (x : Char) (l : List Char) (hl : '%' ∉ l) :
    endsPct (x :: l) = (l.isEmpty && decide (x = '%')) := by
  cases l with
  | nil => simp [endsPct]
  | cons c t =>
    have hgl : (c :: t).getLast (by simp) ∈ c :: t := List.getLast_mem _
    have hne : (c :: t).getLast (by simp) ≠ '%' := fun he => hl (he ▸ hgl)
    unfold endsPct
    rw [List.getLast?_cons_cons, List.getLast?_eq_getLast (c :: t) (by simp)]
    simp [hne]

/-- Upper-casing can only produce an uppercase letter or leave the character
unchanged, so any non-uppercase-letter output pins down the input. -/
theorem upperChar_eq_outside (d c : Char)
    (hc : ¬ (65 ≤ c.toNat ∧ c.toNat ≤ 90)) (h : upperChar d = c) : d = c := by
  unfold upperChar at h
  split at h
  · rename_i haz
    obtain ⟨h1, h2⟩ := haz
    rw [Char.le_def] at h1 h2
    have h1' : 97 ≤ d.toNat := h1
    have h2' : d.toNat ≤ 122 := h2
    have hv : (d.toNat - 32).isValidChar := Or.inl (by
      change d.toNat - 32 < 55296
      omega)
    have htn := congrArg Char.toNat h
    rw [toNat_ofNat_valid _ hv] at htn
    exact absurd (by omega : 65 ≤ c.toNat ∧ c.toNat ≤ 90) hc
  · exact h

/-- Upper-casing a `'%'`-free string keeps it `'%'`-free. -/
theorem upperStr_no_pct (q : List Char) (hq : '%' ∉ q) :
    '%' ∉ q.map upperChar := by
  intro hmem
  obtain ⟨d, hd, hdc⟩ := List.mem_map.1 hmem
  exact hq ((upperChar_eq_outside d '%' (by decide) hdc) ▸ hd)

/-- An uppercase hex digit has a value, at most 15, and the values 2 and 5
identify the digits `2` and `5`. -/
theorem hexDigitVal_upper (a : Char) (ha : isUpperHexDigit a = true) :
    ∃ v, hexDigitVal a = some v ∧ v ≤ 15 ∧
      (v = 2 → a = '2') ∧ (v = 5 → a = '5') := by
  unfold isUpperHexDigit at ha
  rw [decide_eq_true_eq] at ha
  rcases ha with ⟨h1, h2⟩ | ⟨h1, h2⟩
  · rw [Char.le_def] at h1 h2
    have h1' : 48 ≤ a.toNat := h1
    have h2' : a.toNat ≤ 57 := h2
    refine ⟨a.toNat - 48, ?_, by omega, ?_, ?_⟩
    · unfold hexDigitVal
      rw [if_pos ⟨h1, h2⟩]
      rfl
    · intro hv
      exact char_toNat_inj a '2' (by
        show a.toNat = 50
        omega)
    · intro hv
      exact char_toNat_inj a '5' (by
        show a.toNat = 53
        omega)
  · rw [Char.le_def] at h1 h2
    have h1' : 65 ≤ a.toNat := h1
    have h2' : a.toNat ≤ 70 := h2
    refine ⟨a.toNat - 'A'.toNat + 10, ?_, by
      show a.toNat - 65 + 10 ≤ 15
      omega, ?_, ?_⟩
    · unfold hexDigitVal
      rw [if_neg, if_neg, if_pos ⟨h1, h2⟩]
      · intro hcon
        obtain ⟨x1, x2⟩ := hcon
        rw [Char.le_def] at x1 x2
        have x1' : 97 ≤ a.toNat := x1
        omega
      · intro hcon
        obtain ⟨x1, x2⟩ := hcon
        rw [Char.le_def] at x1 x2
        have x2' : a.toNat ≤ 57 := x2
        omega
    · intro hv
      have : a.toNat - 65 + 10 = 2 := hv
      omega
    · intro hv
      have : a.toNat - 65 + 10 = 5 := hv
      omega

/-- Evaluation of `hexVal` on a two-digit string with known digit values. -/
theorem hexVal_pair (a b : Char) (va vb : Nat) (hva : hexDigitVal a = some va)
    (hvb : hexDigitVal b = some vb) : hexVal [a, b] = some (va * 16 + vb) := by
  simp [hexVal, hva, hvb]

/-- A pair of uppercase hex digits is a `valid_hex` member. -/
theorem validHex_upper (a b : Char) (ha : isUpperHexDigit a = true)
    (hb : isUpperHexDigit b = true) : validHex [a, b] = true := by
  simp [validHex, ha, hb]

/-- Every member of a well-formed safe-set is a pair of uppercase hex
digits. -/
theorem validSafeB_elim {safe : List (List Char)}
    (hs : validSafeB safe = true) {q : List Char} (hq : q ∈ safe) :
    ∃ a b, q = [a, b] ∧ isUpperHexDigit a = true ∧ isUpperHexDigit b = true := by
  have hall := List.all_eq_true.1 hs q hq
  match q, hall with
  | [a, b], hall =>
    rw [decide_eq_true_eq] at hall
    exact ⟨a, b, rfl, hall.1, hall.2⟩

/-- Unfolding the scanner at a `'%'`. -/
theorem uspecGo_pct (safe : List (List Char)) (raw : Bool) (cs : List Char) :
    uspecGo safe raw ('%' :: cs) =
      if raw then
        '%' :: (cs.takeWhile (· ≠ '%') ++
          uspecGo safe (cs.takeWhile (· ≠ '%')).isEmpty (cs.dropWhile (· ≠ '%')))
      else if validHex ((cs.takeWhile (· ≠ '%')).take 2) ∧
          quoteOf (cs.takeWhile (· ≠ '%')) ∈ safe then
        Char.ofNat ((hexVal (quoteOf (cs.takeWhile (· ≠ '%')))).getD 0) ::
          ((cs.takeWhile (· ≠ '%')).drop 2 ++
            uspecGo safe false (cs.dropWhile (· ≠ '%')))
      else if validHex ((cs.takeWhile (· ≠ '%')).take 2) then
        '%' :: (quoteOf (cs.takeWhile (· ≠ '%')) ++
          (cs.takeWhile (· ≠ '%')).drop 2 ++
          uspecGo safe false (cs.dropWhile (· ≠ '%')))
      else
        '%' :: (cs.takeWhile (· ≠ '%') ++
          uspecGo safe (cs.takeWhile (· ≠ '%')).isEmpty (cs.dropWhile (· ≠ '%'))) := by
  rw [uspecGo, if_pos rfl]

/-- The scanner consumes one glued piece exactly along the four claim
branches. -/
theorem uspecGo_step (safe : List (List Char)) (flag : Bool) (p : List Char)
    (hp : '%' ∉ p) (ps : List (List Char)) :
    uspecGo safe flag (joinTail (p :: ps)) =
      if flag then '%' :: (p ++ uspecGo safe p.isEmpty (joinTail ps))
      else if validHex (p.take 2) ∧ quoteOf p ∈ safe then
        Char.ofNat ((hexVal (quoteOf p)).getD 0) ::
          (p.drop 2 ++ uspecGo safe false (joinTail ps))
      else if validHex (p.take 2) then
        '%' :: (quoteOf p ++ p.drop 2 ++ uspecGo safe false (joinTail ps))
      else '%' :: (p ++ uspecGo safe p.isEmpty (joinTail ps)) := by
  have hsplit := scanSplit_nopct p hp ps
  rw [joinTail_cons, uspecGo_pct, hsplit.1, hsplit.2]

/-- The piece loop of `unquote` agrees with the claim's forward scanner on
well-formed safe-sets without `25`. -/
theorem unquoteAux_eq_uspec (safe : List (List Char)) (hs : validSafeB safe = true)
    (h25 : chars "25" ∉ safe) :
    ∀ (ps : List (List Char)), (∀ q ∈ ps, '%' ∉ q) → ∀ flag : Bool,
      unquoteAux safe flag ps = some (uspecGo safe flag (joinTail ps)) := by
  intro ps
  induction ps with
  | nil =>
    intro _ flag
    cases flag <;> simp [unquoteAux, joinTail, uspecGo]
  | cons p ps ih =>
    intro hmem flag
    have hp : '%' ∉ p := hmem p (List.mem_cons_self p ps)
    have hps : ∀ q ∈ ps, '%' ∉ q := fun q hq => hmem q (List.mem_cons_of_mem _ hq)
    have hdropp : '%' ∉ p.drop 2 := fun hm => hp ((List.drop_sublist _ _).mem hm)
    rw [uspecGo_step safe flag p hp ps]
    cases flag with
    | true =>
      rw [if_pos rfl]
      have hends : endsPct ('%' :: p) = p.isEmpty := by
        rw [endsPct_cons '%' p hp]
        simp
      simp only [unquoteAux, hends, ih hps]
      rfl
    | false =>
      rw [if_neg (by simp)]
      by_cases hin : quoteOf p ∈ safe
      · obtain ⟨a, b, hab, ha, hb⟩ := validSafeB_elim hs hin
        have hvalid : validHex (p.take 2) = true := by
          by_cases hv : validHex (p.take 2) = true
          · exact hv
          · have hqq : quoteOf p = p.take 2 := by
              unfold quoteOf
              rw [if_neg hv]
            rw [hqq] at hab
            rw [hab] at hv
            exact absurd (validHex_upper a b ha hb) hv
        obtain ⟨va, hva, hva15, hva2, -⟩ := hexDigitVal_upper a ha
        obtain ⟨vb, hvb, hvb15, -, hvb5⟩ := hexDigitVal_upper b hb
        have hhex : hexVal (quoteOf p) = some (va * 16 + vb) := by
          rw [hab]
          exact hexVal_pair a b va vb hva hvb
        have hflag : endsPct (Char.ofNat (va * 16 + vb) :: p.drop 2) = false := by
          rw [endsPct_cons _ _ hdropp]
          cases hre : (p.drop 2).isEmpty with
          | false => simp
          | true =>
            have hn : va * 16 + vb ≠ 37 := by
              intro h37
              have hva' : va = 2 := by omega
              have hvb' : vb = 5 := by omega
              apply h25
              have hq25 : quoteOf p = chars "25" := by
                rw [hab, hva2 hva', hvb5 hvb']
                rfl
              exact hq25 ▸ hin
            have hchr : Char.ofNat (va * 16 + vb) ≠ '%' := by
              intro he
              have htn := congrArg Char.toNat he
              rw [toNat_ofNat_valid _ (Or.inl (by
                change va * 16 + vb < 55296
                omega))] at htn
              have h37 : ('%' : Char).toNat = 37 := rfl
              rw [h37] at htn
              exact hn htn
            simp [hchr]
        simp only [unquoteAux, if_pos hin, hhex, hflag, ih hps]
        rw [if_pos ⟨hvalid, hin⟩]
        rfl
      · by_cases hv : validHex (p.take 2) = true
        · have hqup : quoteOf p = (p.take 2).map upperChar := by
            unfold quoteOf
            rw [if_pos hv]
          have hqnopct : '%' ∉ quoteOf p := by
            rw [hqup]
            exact upperStr_no_pct _ (fun hm => hp ((List.take_sublist _ _).mem hm))
          have hqne : (quoteOf p ++ p.drop 2).isEmpty = false := by
            cases hnil : quoteOf p with
            | nil =>
              rw [hqup] at hnil
              rw [List.map_eq_nil_iff.mp hnil] at hv
              simp [validHex] at hv
            | cons c t => simp
          have hflag : endsPct ('%' :: quoteOf p ++ p.drop 2) = false := by
            rw [List.cons_append, endsPct_cons '%' (quoteOf p ++ p.drop 2) (by
              intro hm
              rcases List.mem_append.1 hm with hm | hm
              exacts [hqnopct hm, hdropp hm])]
            simp [hqne]
          simp only [unquoteAux, if_neg hin, hflag, ih hps]
          rw [if_neg (fun hc => hin hc.2), if_pos hv]
          rfl
        · have hqq : quoteOf p = p.take 2 := by
            unfold quoteOf
            rw [if_neg hv]
          have hfull : quoteOf p ++ p.drop 2 = p := by
            rw [hqq, List.take_append_drop]
          have hflag : endsPct ('%' :: quoteOf p ++ p.drop 2) = p.isEmpty := by
            rw [List.cons_append, hfull, endsPct_cons '%' p hp]
            simp
          simp only [unquoteAux, if_neg hin, hflag, ih hps]
          rw [if_neg (fun hc => hin hc.2), if_neg hv]
          have hstep : (fun t => '%' :: quoteOf p ++ p.drop 2 ++ t) <$>
              some (uspecGo safe p.isEmpty (joinTail ps)) =
              some ('%' :: ((quoteOf p ++ p.drop 2) ++
                uspecGo safe p.isEmpty (joinTail ps))) := rfl
          rw [hstep, hfull]

/-- On a well-formed safe-set the piece loop never hits the `int` failure:
any quote found in the safe-set is a pair of hex digits. -/
theorem unquoteAux_isSome (safe : List (List Char)) (hs : validSafeB safe = true) :
    ∀ (ps : List (List Char)) (flag : Bool),
      (unquoteAux safe flag ps).isSome = true := by
  intro ps
  induction ps with
  | nil =>
    intro flag
    cases flag <;> simp [unquoteAux]
  | cons p ps ih =>
    intro flag
    cases flag with
    | true =>
      simp only [unquoteAux]
      simp [ih]
    | false =>
      simp only [unquoteAux]
      by_cases hin : quoteOf p ∈ safe
      · obtain ⟨a, b, hab, ha, hb⟩ := validSafeB_elim hs hin
        obtain ⟨va, hva, -, -, -⟩ := hexDigitVal_upper a ha
        obtain ⟨vb, hvb, -, -, -⟩ := hexDigitVal_upper b hb
        have hhex : hexVal (quoteOf p) = some (va * 16 + vb) := by
          rw [hab]
          exact hexVal_pair a b va vb hva hvb
        rw [if_pos hin, hhex]
        simp [ih]
      · rw [if_neg hin]
        simp [ih]

/-- Counterexample for C2 as stated: with `25` in the safe-set the first
triplet decodes to a literal `%`, which triggers the literal-`%%` rule and
suppresses decoding of the following `%41` triplet even though `41` is in
the safe-set — the claim predicts `%A` but the code returns `%%41`. -/
theorem claim_C2_counterexample :
    unquote (chars "%25%41") [chars "25", chars "41"] = some (chars "%%41") ∧
    chars "%%41" ≠ chars "%A" := by decide

/-- Claim C2 (amended): on every safe-set of two-uppercase-hex-digit codes,
`unquote` never fails; and when `25` is not in the safe-set it acts as a
single forward scan that decodes a `%XX` triplet exactly when `XX` is a hex
pair of uniform case whose uppercased form is in the safe-set, re-emits `%`
plus the uppercased pair for uniform-case pairs outside the safe-set, passes
mixed-case pairs, invalid triplets and a trailing lone `%` through
unchanged, treats a bare `%%` as literal (emitting the piece after it raw),
and never re-scans decoded literals; the four concrete examples hold as
stated. -/
theorem claim_C2 :
    (∀ (text : List Char) (safe : List (List Char)), validSafeB safe = true →
      (unquote text safe).isSome = true) ∧
    (∀ (text : List Char) (safe : List (List Char)), validSafeB safe = true →
      chars "25" ∉ safe →
      unquote text safe = some (uspecGo safe false text)) ∧
    unquote (chars "%2F") [chars "2F"] = some (chars "/") ∧
    unquote (chars "%2f") [chars "2F"] = some (chars "/") ∧
    unquote (chars "%xy") [] = some (chars "%xy") ∧
    unquote (chars "%") [] = some (chars "%") := by
  refine ⟨?_, ?_, by decide, by decide, by decide, by decide⟩
  · intro text safe hs
    simp only [unquote]
    simp [unquoteAux_isSome safe hs]
  · intro text safe hs h25
    obtain ⟨hrec, hp, hps⟩ := pySplit_pct_spec text
    simp only [unquote]
    rw [unquoteAux_eq_uspec safe hs h25 _ hps false]
    have hcopy : uspecGo safe false text =
        (pySplit '%' text).1 ++
          uspecGo safe false (joinTail (pySplit '%' text).2) := by
      conv_lhs => rw [← hrec]
      exact uspecGo_copy safe _ hp _
    rw [hcopy]
    rfl

/-- Witness for C2's general parts at a concrete text and safe-set. -/
theorem claim_C2_witness :
    (unquote (chars "a%3Ab") [chars "3A"]).isSome = true ∧
    unquote (chars "a%3Ab") [chars "3A"] =
      some (uspecGo [chars "3A"] false (chars "a%3Ab")) :=
  ⟨claim_C2.1 (chars "a%3Ab") [chars "3A"] (by decide),
   claim_C2.2.1 (chars "a%3Ab") [chars "3A"] (by decide) (by decide)⟩

set_option maxRecDepth 10000 in
/-- Claim C1 evaluated at its failing input: `URL('http://' + 'h'*293)` (a
300-character link) constructs successfully with a 301-character canonical
url — canonicalization appends the defaulted `/` path — but re-constructing
a URL from that canonical url trips the 300-character runaway rule of
`clean_webpage_links` (no terminator characters, so the whole link is
discarded) and produces `.url = "/"`, which is not byte-identical.  This
contradicts the idempotence the class docstring ("Currently idempotent.")
and the spec assert. -/
theorem claim_C1_bug :
    (URL.make (chars "http://" ++ List.replicate 293 'h')).map URL.url =
      .ok (chars "http://" ++ List.replicate 293 'h' ++ chars "/") ∧
    (URL.make (chars "http://" ++ List.replicate 293 'h' ++ chars "/")).map URL.url =
      .ok (chars "/") ∧
    chars "http://" ++ List.replicate 293 'h' ++ chars "/" ≠ chars "/" :=
  ⟨rfl, rfl, by decide⟩

end Cocrawler
